import Mathlib

/-!
Verification model of the `toggle_cool_cow_says_type` typing-practice program.

Modelling conventions:

* Rust `String` / `Vec<char>` values are modelled as `List Char`, and
  `len()` / `chars().count()` as the list length (they coincide on
  single-byte content; the one place where the program's byte/char
  distinction is observable — the `code[..max_len]` slice in `words` —
  is modelled at the byte level by `byteSlice`, with a slice that falls
  off a character boundary — a Rust panic — modelled as `none`).
* `Instant`/`Duration` values are modelled as rationals; the ambient
  clock (`Instant::now()`) becomes an explicit parameter `t` of the
  operations that read it.
* `f32` arithmetic in `Game::finish`/`wpm`/`cpm` is modelled by exact
  rational arithmetic; `as usize` casts are modelled by `ratToUsize`
  (floor, saturating at zero, as for non-negative finite floats).
* The struct `Game` in the source keeps the target both as `text : String`
  and `text_chars : Vec<char>`, always with the same contents; the model
  keeps a single field `text`.
-/

namespace Tccst

/-- The `GameState` enum of `gamestate.rs`: `Stopped`, `Running(Instant)`,
and `Finished { elapsed, wpm, cpm, word_count, mistakes, accuracy }`. -/
inductive GameState where
  | stopped : GameState
  | running (start : ℚ) : GameState
  | finished (elapsed : ℚ) (wpm cpm word_count mistakes : ℕ) (accuracy : ℚ) : GameState
deriving DecidableEq

/-- Whether a state is the `Finished` variant. -/
def GameState.isFinished : GameState → Bool
  | .finished _ _ _ _ _ _ => true
  | _ => false

/-- The `word_count` field stored in a `Finished` state, if any. -/
def GameState.wordCount? : GameState → Option ℕ
  | .finished _ _ _ wc _ _ => some wc
  | _ => none

/-- The `accuracy` field stored in a `Finished` state, if any. -/
def GameState.accuracy? : GameState → Option ℚ
  | .finished _ _ _ _ _ a => some a
  | _ => none

/-- The `Game` struct of `gamestate.rs` (with `text`/`text_chars` merged
into the single field `text`, see the file header). -/
structure Game where
  text : List Char
  state : GameState
  input : List Char
  mistakes : ℕ
  word_count : ℕ
  strict : Bool
  skip_word_on_space : Bool
deriving DecidableEq

/-- Rust `Game::new`: joins the words with single spaces, starts with an empty
input buffer, zero mistakes and state `Running(now)`. -/
def Game.new (ws : List (List Char)) (strict skip_word_on_space : Bool) (t : ℚ) : Game :=
  { text := List.intercalate [' '] ws
    state := GameState.running t
    input := []
    mistakes := 0
    word_count := ws.length
    strict := strict
    skip_word_on_space := skip_word_on_space }

/-- Models the `as usize` cast of a non-negative finite `f32`
(truncation toward zero, saturating at zero for negative values). -/
def ratToUsize (q : ℚ) : ℕ := q.floor.toNat

/-- Rust `Game::cpm`: `text.chars().count() as f32 * (60.0 / dur.as_secs_f32())`. -/
def Game.cpm (g : Game) (dur : ℚ) : ℚ := (g.text.length : ℚ) * (60 / dur)

/-- Rust `Game::wpm`: `self.cpm(dur) / 5.0`. -/
def Game.wpm (g : Game) (dur : ℚ) : ℚ := g.cpm dur / 5

/-- Rust `Game::finish`: no-op unless `Running`; from `Running(now)` stores the
derived statistics, clamping accuracy below at `0`. -/
def Game.finish (t : ℚ) (g : Game) : Game :=
  match g.state with
  | GameState.running s =>
      let elapsed := t - s
      let a : ℚ := 100 - ((g.mistakes : ℚ) / (g.text.length : ℚ)) * 100
      let accuracy : ℚ := if a < 0 then 0 else a
      { g with state := (GameState.finished elapsed (ratToUsize (g.wpm elapsed))
          (ratToUsize (g.cpm elapsed)) g.word_count g.mistakes accuracy) }
  | _ => g

/-- Rust `Game::input` (the per-character diff): zips each typed character with
the target character at the same index, marking correctness. -/
def Game.diff (g : Game) : List (Char × Bool) :=
  (g.input.zip (g.text.take g.input.length)).map (fun p => (p.1, p.1 == p.2))

/-- The normal (non-word-skip) path of `Game::push`, from the
`self.input.push(c)` statement onward: append `c`, compare with the target
character, maybe count a mistake, maybe finish, and trim the one-character
overshoot. -/
def Game.pushNormal (t : ℚ) (c : Char) (g : Game) : Game :=
  let next := g.input.length + 1
  let g1 : Game := { g with input := g.input ++ [c] }
  let b := (g1.text.take next).getLast?
  let g2 : Game :=
    if g1.strict = false ∧ g1.text.length + 1 ≤ next ∧ c = ' ' then g1
    else if some c ≠ b then { g1 with mistakes := g1.mistakes + 1 } else g1
  let g3 : Game :=
    if g2.input = g2.text ∨ (g2.strict = false ∧ g2.text.length + 1 ≤ next ∧ c = ' ') then
      Game.finish t g2
    else g2
  if g3.text.length < g3.input.length then { g3 with input := g3.input.dropLast } else g3

/-- The body of `Game::push` after the initial restamp statement:
the `match (skip_word_on_space, c, text-char-at-cursor)` of the source,
with the word-skip fill arm, the ignore arms, and the fall-through to the
normal path. -/
def Game.pushCore (t : ℚ) (c : Char) (g : Game) : Game :=
  let i := g.input.length
  if g.skip_word_on_space = true ∧ c = ' ' then
    match g.text[i]? with
    | some cur =>
        if cur ≠ ' ' ∧ 0 < i then
          match g.text[i - 1]? with
          | none => g
          | some p =>
              if p = ' ' then g
              else
                let m := ((g.text.drop i).takeWhile (fun ch => ch ≠ ' ')).length + 1
                let g1 : Game :=
                  { g with input := g.input ++ List.replicate m ' ', mistakes := g.mistakes + m }
                if g1.strict = false ∧ g1.text.length ≤ g1.input.length then Game.finish t g1
                else g1
        else if cur ≠ ' ' then g
        else Game.pushNormal t c g
    | none => Game.pushNormal t c g
  else Game.pushNormal t c g

/-- Rust `Game::push`: on an empty buffer the running start time is restamped,
then the word-skip `match` and the normal path run (`Game.pushCore`). -/
def Game.push (t : ℚ) (c : Char) (g0 : Game) : Game :=
  Game.pushCore t c (if g0.input.length = 0 then { g0 with state := GameState.running t } else g0)

/-- Removes the maximal run of trailing spaces
(the `while let Some(' ') = ... { pop }` loop of `Game::pop`). -/
def removeTrailingSpaces (l : List Char) : List Char :=
  (l.reverse.dropWhile (fun ch => ch = ' ')).reverse

/-- Rust `Game::pop`: if the last typed character is a space, remove the whole
trailing run of spaces; otherwise remove one character (no-op on empty). -/
def Game.pop (g : Game) : Game :=
  match g.input.getLast? with
  | some c =>
      if c = ' ' then { g with input := removeTrailingSpaces g.input }
      else { g with input := g.input.dropLast }
  | none => { g with input := g.input.dropLast }

/-- Rust `Game::pop_word`: drop trailing spaces, then trailing non-spaces.
The source computes `to_remove = len - kept` and pops that many times,
which keeps exactly the first `kept` characters (`kept ≤ len` always). -/
def Game.pop_word (g : Game) : Game :=
  let kept := ((g.input.reverse.dropWhile (fun ch => ch = ' ')).dropWhile
    (fun ch => ch ≠ ' ')).length
  { g with input := g.input.take kept }

/-- Rust `Game::start`. -/
def Game.start (t : ℚ) (g : Game) : Game := { g with state := GameState.running t }

/-- The session states reachable through the public `Game` API, starting
from `Game::new`. -/
inductive Reachable : Game → Prop where
  | new : ∀ (ws : List (List Char)) (strict skip : Bool) (t : ℚ),
      Reachable (Game.new ws strict skip t)
  | push : ∀ {g : Game} (t : ℚ) (c : Char), Reachable g → Reachable (Game.push t c g)
  | pop : ∀ {g : Game}, Reachable g → Reachable (Game.pop g)
  | pop_word : ∀ {g : Game}, Reachable g → Reachable (Game.pop_word g)
  | start : ∀ {g : Game} (t : ℚ), Reachable g → Reachable (Game.start t g)
  | finish : ∀ {g : Game} (t : ℚ), Reachable g → Reachable (Game.finish t g)

/-! Section: The corpus sampler (`words.rs`)

`find_files` and the file reads are I/O; the model takes the list of file
contents (each a `List Char`) as input, in the order the candidates are
tried.  The sampler draws candidates uniformly at random *without
replacement* (`files.choose` followed by `files.remove`), so a run of the
loop is exactly a traversal of the candidate contents in some order; that
order is universally quantified here.  The window randomness
`rng.gen_range(0..=max)` is modelled by a function `rng : ℕ → ℕ` applied to
the upper bound `max`, together with the hypothesis `∀ m, rng m ≤ m`.
The truncation of a candidate's content byte-slices the string and can
panic off a character boundary, so the sampler's result type is
`Option (Except Error _)`, with `none` modelling that panic. -/

/-- The error enum of `error.rs`. -/
inductive Error where
  | PathMissing | NoFiles | InsufficientWords | ZeroWordCount
  | NeedsHelp | InvalidColor | InvalidFile | Version
deriving DecidableEq

/-- Truncates a line at the first occurrence of `//`
(the `line.find("//")` step of `code_to_words`). -/
def stripLineComment : List Char → List Char
  | [] => []
  | '/' :: '/' :: _ => []
  | c :: rest => c :: stripLineComment rest

/-- Rust `char::is_whitespace`: the Unicode `White_Space` property,
code point by code point (U+0009–U+000D, U+0020, U+0085, U+00A0, U+1680,
U+2000–U+200A, U+2028, U+2029, U+202F, U+205F, U+3000). -/
def rustIsWhitespace (c : Char) : Bool :=
  decide ((0x09 ≤ c.toNat ∧ c.toNat ≤ 0x0D) ∨ c.toNat = 0x20 ∨ c.toNat = 0x85 ∨
    c.toNat = 0xA0 ∨ c.toNat = 0x1680 ∨ (0x2000 ≤ c.toNat ∧ c.toNat ≤ 0x200A) ∨
    c.toNat = 0x2028 ∨ c.toNat = 0x2029 ∨ c.toNat = 0x202F ∨ c.toNat = 0x205F ∨
    c.toNat = 0x3000)

/-- Rust `str::split_whitespace`: split on whitespace runs, discarding
empty tokens. -/
def splitWhitespaceTokens (l : List Char) : List (List Char) :=
  (l.splitOnP rustIsWhitespace).filter (fun w => w ≠ [])

/-- Rust `code_to_words`: split into lines, strip `//` comments per line,
split each line on whitespace, and concatenate in file order. -/
def code_to_words (code : List Char) : List (List Char) :=
  (((code.splitOn '\n').map stripLineComment).map splitWhitespaceTokens).flatten

/-- Rust `str::trim`: removes leading and trailing whitespace. -/
def rustTrim (l : List Char) : List Char :=
  ((l.dropWhile rustIsWhitespace).reverse.dropWhile rustIsWhitespace).reverse

/-- Rust `choose_words`: `max = len - word_count`, `to = gen_range(0..=max)`,
return `words[to..to + word_count]` (modelled by `drop`/`take`, which
agrees with the Rust slice whenever `to + word_count ≤ len`; the sampler
only calls it with `word_count ≤ len`, see `choose_words_in_range`). -/
def choose_words (ws : List (List Char)) (word_count : ℕ) (rng : ℕ → ℕ) : List (List Char) :=
  let mx := ws.length - word_count
  let idx := rng mx
  (ws.drop idx).take word_count

/-- Byte-accurate model of the Rust slice `&code[..n]` on a UTF-8 string:
`some` of the characters covering the first `n` bytes when `n` lands on a
character boundary, `none` (a panic in Rust) otherwise. -/
def byteSlice (n : ℕ) : List Char → Option (List Char)
  | [] => if n = 0 then some [] else none
  | c :: cs =>
      if n = 0 then some []
      else if c.utf8Size ≤ n then (byteSlice (n - c.utf8Size) cs).map (fun l => c :: l)
      else none

/-- Byte-accurate model of the truncation step of `words`:
`if code.chars().count() > max_len { code = code[..max_len].to_string() }`.
The guard counts characters but the slice counts bytes; `none` is the
panic of a slice off a character boundary. -/
def truncateBytes (maxLen : ℕ) (code : List Char) : Option (List Char) :=
  if maxLen < code.length then byteSlice maxLen code else some code

/-- The content preprocessing of one candidate file in `words`: trim, then
the byte-accurate truncation (`none` = the program panics), then
tokenize. -/
def tokensOf? (maxLen : ℕ) (code : List Char) : Option (List (List Char)) :=
  (truncateBytes maxLen (rustTrim code)).map code_to_words

/-- The `loop` of `words`: try each remaining candidate file; skip it when
it has fewer tokens than `word_count`; `InsufficientWords` when the
candidates run out.  A `none` from the truncation (the byte-slice panic)
aborts the whole run as `none`. -/
def wordsLoop (word_count maxLen : ℕ) (rng : ℕ → ℕ) :
    List (List Char) → Option (Except Error (List (List Char)))
  | [] => some (Except.error Error.InsufficientWords)
  | code :: rest =>
      match tokensOf? maxLen code with
      | none => none
      | some ws =>
          if ws.length < word_count then wordsLoop word_count maxLen rng rest
          else some (Except.ok (choose_words ws word_count rng))

/-- Rust `words`: `NoFiles` when no candidate file exists, otherwise the
sampling loop over the candidates (`none` = the run panics). -/
def words (word_count maxLen : ℕ) (rng : ℕ → ℕ) (files : List (List Char)) :
    Option (Except Error (List (List Char))) :=
  if files.length = 0 then some (Except.error Error.NoFiles)
  else wordsLoop word_count maxLen rng files

/-! Section: Concrete sessions and the word-skip invariant used by the theorems -/

/-- The session of the spec's scenario: target `one two three`,
strict = false, skip_word_on_space = false, with the thirteen matching
characters pushed in order. -/
def gScenario : Game :=
  List.foldl (fun g c => Game.push 0 c g)
    (Game.new [['o','n','e'], ['t','w','o'], ['t','h','r','e','e']] false false 0)
    ['o','n','e',' ','t','w','o',' ','t','h','r','e','e']

/-- The concrete session used to witness C3: one-word target `a`,
still running. -/
def gAcc : Game := Game.new [['a']] false false 0

/-- The word-skip fill on the final word: target `ab`, a correct `a`
typed, then a space pushed with skip_word_on_space enabled. -/
def gOvershoot : Game := Game.push 0 ' ' (Game.push 0 'a' (Game.new [['a','b']] false true 0))

/-- A session that has finished by typing its two-character target `ab`
exactly. -/
def gFinishedAB : Game := Game.push 0 'b' (Game.push 0 'a' (Game.new [['a','b']] false false 0))

/-- The reachable skip-enabled session used to witness C5: target `ab cd`
with a correct `a` typed, the cursor mid-word on `b`. -/
def gSkipStart : Game := Game.push 0 'a' (Game.new [['a','b'],['c','d']] false true 0)

/-- Every run-final space of `input` sits over a space of `text` or
beyond the end of `text`. -/
def SpacesOk (text input : List Char) : Prop :=
  ∀ i : ℕ, input[i]? = some ' ' → input[i + 1]? ≠ some ' ' →
    (text[i]? = some ' ' ∨ text.length ≤ i)

/-! Section: Basic facts about the session operations -/

@[simp]
theorem finish_text (t : ℚ) (g : Game) : (Game.finish t g).text = g.text := by
  unfold Game.finish; split <;> rfl

@[simp]
theorem finish_input (t : ℚ) (g : Game) : (Game.finish t g).input = g.input := by
  unfold Game.finish; split <;> rfl

@[simp]
theorem finish_strict (t : ℚ) (g : Game) : (Game.finish t g).strict = g.strict := by
  unfold Game.finish; split <;> rfl

@[simp]
theorem finish_skip (t : ℚ) (g : Game) :
    (Game.finish t g).skip_word_on_space = g.skip_word_on_space := by
  unfold Game.finish; split <;> rfl

theorem finish_of_finished (t : ℚ) (g : Game) (h : g.state.isFinished = true) :
    Game.finish t g = g := by
  unfold Game.finish
  split
  · next s hs => rw [hs] at h; simp [GameState.isFinished] at h
  · rfl

theorem finish_isFinished (t s : ℚ) (g : Game) (hs : g.state = GameState.running s) :
    (Game.finish t g).state.isFinished = true := by
  unfold Game.finish
  rw [hs]
  rfl

@[simp]
theorem pushNormal_text (t : ℚ) (c : Char) (g : Game) :
    (Game.pushNormal t c g).text = g.text := by
  unfold Game.pushNormal
  dsimp only
  split_ifs <;> simp

@[simp]
theorem pushNormal_strict (t : ℚ) (c : Char) (g : Game) :
    (Game.pushNormal t c g).strict = g.strict := by
  unfold Game.pushNormal
  dsimp only
  split_ifs <;> simp

@[simp]
theorem pushNormal_skip (t : ℚ) (c : Char) (g : Game) :
    (Game.pushNormal t c g).skip_word_on_space = g.skip_word_on_space := by
  unfold Game.pushNormal
  dsimp only
  split_ifs <;> simp

@[simp]
theorem pushCore_text (t : ℚ) (c : Char) (g : Game) : (Game.pushCore t c g).text = g.text := by
  unfold Game.pushCore
  dsimp only
  repeat' split
  all_goals simp

@[simp]
theorem pushCore_skip (t : ℚ) (c : Char) (g : Game) :
    (Game.pushCore t c g).skip_word_on_space = g.skip_word_on_space := by
  unfold Game.pushCore
  dsimp only
  repeat' split
  all_goals simp

@[simp]
theorem pushCore_strict (t : ℚ) (c : Char) (g : Game) :
    (Game.pushCore t c g).strict = g.strict := by
  unfold Game.pushCore
  dsimp only
  repeat' split
  all_goals simp

@[simp]
theorem push_text (t : ℚ) (c : Char) (g : Game) : (Game.push t c g).text = g.text := by
  unfold Game.push
  split <;> simp

@[simp]
theorem push_skip (t : ℚ) (c : Char) (g : Game) :
    (Game.push t c g).skip_word_on_space = g.skip_word_on_space := by
  unfold Game.push
  split <;> simp

@[simp]
theorem push_strict (t : ℚ) (c : Char) (g : Game) : (Game.push t c g).strict = g.strict := by
  unfold Game.push
  split <;> simp

@[simp]
theorem pop_text (g : Game) : (Game.pop g).text = g.text := by
  unfold Game.pop; split <;> first | rfl | split <;> rfl

@[simp]
theorem pop_state (g : Game) : (Game.pop g).state = g.state := by
  unfold Game.pop; split <;> first | rfl | split <;> rfl

@[simp]
theorem pop_strict (g : Game) : (Game.pop g).strict = g.strict := by
  unfold Game.pop; split <;> first | rfl | split <;> rfl

@[simp]
theorem pop_skip (g : Game) : (Game.pop g).skip_word_on_space = g.skip_word_on_space := by
  unfold Game.pop; split <;> first | rfl | split <;> rfl

@[simp]
theorem pop_word_text (g : Game) : (Game.pop_word g).text = g.text := rfl

@[simp]
theorem pop_word_state (g : Game) : (Game.pop_word g).state = g.state := rfl

@[simp]
theorem pop_word_strict (g : Game) : (Game.pop_word g).strict = g.strict := rfl

@[simp]
theorem pop_word_skip (g : Game) :
    (Game.pop_word g).skip_word_on_space = g.skip_word_on_space := rfl

@[simp]
theorem start_text (t : ℚ) (g : Game) : (Game.start t g).text = g.text := rfl

@[simp]
theorem start_input (t : ℚ) (g : Game) : (Game.start t g).input = g.input := rfl

@[simp]
theorem start_skip (t : ℚ) (g : Game) :
    (Game.start t g).skip_word_on_space = g.skip_word_on_space := rfl

/-! Section: Claim C2 -/

/-- C2: for a session built from the words `one`, `two`, `three` with
strict = false and skip_word_on_space = false, pushing
`'o','n','e',' ','t','w','o',' ','t','h','r','e','e'` in order yields
zero mistakes and a `Finished` state with `word_count = 3`. -/
theorem scenario_one_two_three :
    gScenario.mistakes = 0 ∧ gScenario.state.isFinished = true ∧
      gScenario.state.wordCount? = some 3 := by decide

/-! Section: Claim C3 -/

/-- C3: at the Running-to-Finished transition the stored accuracy equals
`clamp (100 - 100 * mistakes / chars) 0 100` whenever the target has at
least one character, and in particular lies in `[0, 100]`. -/
theorem finish_accuracy_clamped (g : Game) (t s : ℚ)
    (hs : g.state = GameState.running s) (hn : 0 < g.text.length) :
    (Game.finish t g).state.accuracy? =
      some (min 100 (max 0 (100 - 100 * (g.mistakes : ℚ) / (g.text.length : ℚ)))) ∧
    (∀ a : ℚ, (Game.finish t g).state.accuracy? = some a → 0 ≤ a ∧ a ≤ 100) := by
  have hn' : (0 : ℚ) < (g.text.length : ℚ) := by exact_mod_cast hn
  have hq : (0 : ℚ) ≤ (g.mistakes : ℚ) / (g.text.length : ℚ) * 100 := by positivity
  unfold Game.finish
  rw [hs]
  dsimp only [GameState.accuracy?]
  constructor
  · congr 1
    have hring : (100 : ℚ) - (g.mistakes : ℚ) / (g.text.length : ℚ) * 100 =
        100 - 100 * (g.mistakes : ℚ) / (g.text.length : ℚ) := by ring
    rw [hring]
    set x : ℚ := 100 - 100 * (g.mistakes : ℚ) / (g.text.length : ℚ) with hx
    have hx100 : x ≤ 100 := by rw [hx]; linarith [hq]
    split
    · next hlt =>
        rw [max_eq_left (le_of_lt hlt), min_eq_right (le_refl _ |>.trans (by norm_num))]
    · next hge =>
        rw [max_eq_right (not_lt.mp hge), min_eq_right hx100]
  · intro a ha
    have ha' : a = if (100 : ℚ) - (g.mistakes : ℚ) / (g.text.length : ℚ) * 100 < 0 then 0
        else 100 - (g.mistakes : ℚ) / (g.text.length : ℚ) * 100 := by
      exact (Option.some.injEq _ _ ▸ ha).symm
    rw [ha']
    split
    · norm_num
    · next hge => exact ⟨not_lt.mp hge, by linarith [hq]⟩

/-- Witness for C3 at a concrete running session. -/
theorem finish_accuracy_clamped_witness :
    (Game.finish 1 gAcc).state.accuracy? =
      some (min 100 (max 0 (100 - 100 * (gAcc.mistakes : ℚ) / (gAcc.text.length : ℚ)))) ∧
    (∀ a : ℚ, (Game.finish 1 gAcc).state.accuracy? = some a → 0 ≤ a ∧ a ≤ 100) :=
  finish_accuracy_clamped gAcc 1 0 rfl (by decide)

/-! Section: Claim C9 -/

/-- C9: `finish` is idempotent — once a first call has moved the session
from Running to Finished, a second call changes nothing. -/
theorem finish_idempotent (g : Game) (t t' s : ℚ) (hs : g.state = GameState.running s) :
    Game.finish t' (Game.finish t g) = Game.finish t g :=
  finish_of_finished t' _ (finish_isFinished t s g hs)

/-- Witness for C9 at a concrete running session. -/
theorem finish_idempotent_witness :
    Game.finish 2 (Game.finish 1 gAcc) = Game.finish 1 gAcc :=
  finish_idempotent gAcc 1 2 0 rfl

/-! Section: Claim C8 -/

/-- C8: the diff never has more entries than the target text, for every
session state whatsoever (the zip in `Game::input` truncates to the
shorter of the two sequences). -/
theorem diff_length_le (g : Game) : g.diff.length ≤ g.text.length := by
  unfold Game.diff
  simp only [List.length_map, List.length_zip, List.length_take]
  omega

/-! Section: Claim C1 -/

/-- C1 counterexample: after the word-skip fill of the final word the
input buffer is one character longer than the target, and this state
persists after `push` returns (the fill path never trims). -/
theorem push_overshoot_exceeds_target :
    gOvershoot.text.length < gOvershoot.input.length := by decide

theorem pushNormal_input (t : ℚ) (c : Char) (g : Game) :
    (Game.pushNormal t c g).input =
      if g.text.length < g.input.length + 1 then g.input else g.input ++ [c] := by
  unfold Game.pushNormal
  dsimp only
  repeat' split
  all_goals simp_all [List.dropLast_concat]

theorem pushNormal_length_bound (t : ℚ) (c : Char) (g : Game)
    (h : g.input.length ≤ g.text.length + 1) :
    (Game.pushNormal t c g).input.length ≤ g.text.length + 1 := by
  rw [pushNormal_input]
  split
  · exact h
  · next hnl => simp only [List.length_append, List.length_cons, List.length_nil]; omega

theorem pushCore_length_bound (t : ℚ) (c : Char) (g : Game)
    (h : g.input.length ≤ g.text.length + 1) :
    (Game.pushCore t c g).input.length ≤ g.text.length + 1 := by
  unfold Game.pushCore
  dsimp only
  split
  · split
    · next cur hcur =>
        split
        · split
          · exact h
          · next p hp =>
              split
              · exact h
              · have hi : g.input.length < g.text.length := by
                  exact (List.getElem?_eq_some_iff.mp hcur).1
                have htw := (List.takeWhile_sublist
                  (l := g.text.drop g.input.length)
                  (p := fun ch => decide (ch ≠ ' '))).length_le
                rw [List.length_drop] at htw
                split <;>
                  simp only [finish_input, List.length_append, List.length_replicate] <;> omega
        · split
          · exact h
          · exact pushNormal_length_bound t c g h
    · exact pushNormal_length_bound t c g h
  · exact pushNormal_length_bound t c g h

/-- C1 (amended): after every `push` the input buffer's length never
exceeds the target text's length *plus one*; the trim keeps the normal
path within the bound, and the word-skip fill of the final word is the
one path that can leave a persistent one-character overshoot. -/
theorem push_length_bound (g : Game) (t : ℚ) (c : Char)
    (h : g.input.length ≤ g.text.length + 1) :
    (Game.push t c g).input.length ≤ g.text.length + 1 := by
  unfold Game.push
  split
  · next h0 => simpa using pushCore_length_bound t c _ (by simpa using h)
  · exact pushCore_length_bound t c g h

/-- Witness for the amended C1 at a concrete session. -/
theorem push_length_bound_witness :
    (Game.push 0 'x' gAcc).input.length ≤ gAcc.text.length + 1 :=
  push_length_bound gAcc 0 'x' (by decide)

/-! Section: Claim C4 -/

/-- C4 counterexample: `pop` on a Finished session is not a no-op — the
session reached by typing target `ab` exactly is Finished, yet `pop`
removes the last typed character and shrinks the observable diff
(`Game::pop` never checks the state). -/
theorem finished_pop_changes_diff :
    gFinishedAB.state.isFinished = true ∧ (Game.pop gFinishedAB).diff ≠ gFinishedAB.diff := by
  decide

theorem pushNormal_state_of_finished (t : ℚ) (c : Char) (g : Game)
    (hfin : g.state.isFinished = true) :
    (Game.pushNormal t c g).state = g.state := by
  unfold Game.pushNormal
  dsimp only
  repeat' split
  all_goals simp_all [finish_of_finished]

/-- C4 (amended): on a Finished session whose buffer has reached the
target's length (every Finished state the push-driven completion
produces, with a non-empty target), `push` leaves the buffer, target and
state — hence the diff and the stored statistics — unchanged; `pop` and
`pop_word` always preserve the target, the state and the stored
statistics, but they still edit the typed buffer, so the diff may
shrink. -/
theorem finished_session_frame (g : Game) (t : ℚ) (c : Char)
    (hfin : g.state.isFinished = true) (hne : g.text ≠ [])
    (hlen : g.text.length ≤ g.input.length) :
    ((Game.push t c g).input = g.input ∧ (Game.push t c g).text = g.text ∧
      (Game.push t c g).state = g.state) ∧
    ((Game.pop g).text = g.text ∧ (Game.pop g).state = g.state) ∧
    ((Game.pop_word g).text = g.text ∧ (Game.pop_word g).state = g.state) := by
  have htlen : 0 < g.text.length := List.length_pos.mpr hne
  have hnz : ¬ g.input.length = 0 := by omega
  have hpush : Game.push t c g = Game.pushNormal t c g := by
    unfold Game.push
    rw [if_neg hnz]
    unfold Game.pushCore
    dsimp only
    have hnone : g.text[g.input.length]? = none := List.getElem?_eq_none (by omega)
    split
    · rw [hnone]
    · rfl
  refine ⟨?_, ⟨pop_text g, pop_state g⟩, ⟨rfl, rfl⟩⟩
  rw [hpush]
  refine ⟨?_, pushNormal_text t c g, pushNormal_state_of_finished t c g hfin⟩
  rw [pushNormal_input]
  rw [if_pos (by omega)]

/-- Witness for the amended C4 at the concrete finished session. -/
theorem finished_session_frame_witness :
    ((Game.push 0 'x' gFinishedAB).input = gFinishedAB.input ∧
      (Game.push 0 'x' gFinishedAB).text = gFinishedAB.text ∧
      (Game.push 0 'x' gFinishedAB).state = gFinishedAB.state) ∧
    ((Game.pop gFinishedAB).text = gFinishedAB.text ∧
      (Game.pop gFinishedAB).state = gFinishedAB.state) ∧
    ((Game.pop_word gFinishedAB).text = gFinishedAB.text ∧
      (Game.pop_word gFinishedAB).state = gFinishedAB.state) :=
  finished_session_frame gFinishedAB 0 'x' (by decide) (by decide) (by decide)

/-! Section: Claim C5

The round-trip claim needs an invariant of skip-enabled sessions: every
*run-final* space of the input buffer (a typed space not followed by
another typed space) lies over a target-space position or beyond the end
of the target.  Word-skip fills end exactly on the word-boundary space
(or just past the target for the final word), a literal space is only
appended over a target space or beyond the end, and the removal
operations only ever expose run-final spaces, so the invariant is
inductive; it implies that at any fill trigger point the buffer ends in a
non-space, which is what makes a single `pop` remove exactly the filled
run. -/

theorem spacesOk_nil (text : List Char) : SpacesOk text [] := by
  intro i hi
  simp at hi

theorem spacesOk_append_single {text l : List Char} {c : Char} (h : SpacesOk text l)
    (hc : c = ' ' → (text[l.length]? = some ' ' ∨ text.length ≤ l.length)) :
    SpacesOk text (l ++ [c]) := by
  intro i hi hnext
  by_cases hi1 : i < l.length
  · have hil : l[i]? = some ' ' := by rwa [List.getElem?_append_left hi1] at hi
    by_cases hi2 : i + 1 < l.length
    · refine h i hil ?_
      rwa [List.getElem?_append_left hi2] at hnext
    · refine h i hil ?_
      have : l[i + 1]? = none := List.getElem?_eq_none (by omega)
      simp [this]
  · have hge : l.length ≤ i := by omega
    rw [List.getElem?_append_right hge] at hi
    have hi0 : i - l.length = 0 := by
      by_contra hne
      rw [List.getElem?_eq_none (l := [c]) (by simp; omega)] at hi
      exact Option.noConfusion hi
    have hieq : i = l.length := by omega
    rw [hi0] at hi
    simp at hi
    subst hieq
    exact hc hi

theorem spacesOk_append_replicate {text l : List Char} {k : ℕ} (h : SpacesOk text l)
    (hk : 0 < k)
    (hend : text[l.length + k - 1]? = some ' ' ∨ text.length ≤ l.length + k - 1) :
    SpacesOk text (l ++ List.replicate k ' ') := by
  intro i hi hnext
  by_cases hi1 : i < l.length
  · have hil : l[i]? = some ' ' := by rwa [List.getElem?_append_left hi1] at hi
    by_cases hi2 : i + 1 < l.length
    · refine h i hil ?_
      rwa [List.getElem?_append_left hi2] at hnext
    · exfalso
      apply hnext
      rw [List.getElem?_append_right (by omega)]
      rw [List.getElem?_replicate]
      rw [if_pos (by omega)]
  · have hge : l.length ≤ i := by omega
    have hlt : i < l.length + k := by
      by_contra hge2
      rw [List.getElem?_eq_none (by simp [List.length_replicate]; omega)] at hi
      exact Option.noConfusion hi
    by_cases hi3 : i = l.length + k - 1
    · subst hi3
      exact hend
    · exfalso
      apply hnext
      rw [List.getElem?_append_right (by omega)]
      rw [List.getElem?_replicate]
      rw [if_pos (by omega)]

theorem spacesOk_take {text l : List Char} {k : ℕ} (h : SpacesOk text l)
    (hk : l[k]? ≠ some ' ') : SpacesOk text (l.take k) := by
  intro i hi hnext
  have hik : i < k := by
    by_contra hge
    rw [List.getElem?_take_eq_none (by omega)] at hi
    exact Option.noConfusion hi
  rw [List.getElem?_take_of_lt hik] at hi
  by_cases hi2 : i + 1 < k
  · refine h i hi ?_
    rwa [List.getElem?_take_of_lt hi2] at hnext
  · have : i + 1 = k := by omega
    refine h i hi ?_
    rwa [this]

theorem spacesOk_take_of_getLast {text l : List Char} {k : ℕ} (h : SpacesOk text l)
    (hl : (l.take k).getLast? ≠ some ' ') : SpacesOk text (l.take k) := by
  intro i hi hnext
  have hik : i < k := by
    by_contra hge
    rw [List.getElem?_take_eq_none (by omega)] at hi
    exact Option.noConfusion hi
  have hilen : i < (l.take k).length := by
    rcases List.getElem?_eq_some_iff.mp hi with ⟨hh, _⟩
    exact hh
  rw [List.getElem?_take_of_lt hik] at hi
  by_cases hi2 : i + 1 < k
  · refine h i hi ?_
    rwa [List.getElem?_take_of_lt hi2] at hnext
  · by_cases hi3 : i + 1 < (l.take k).length
    · exfalso
      rw [List.length_take] at hi3
      omega
    · exfalso
      apply hl
      rw [List.getLast?_eq_getElem?]
      have : (l.take k).length - 1 = i := by omega
      rw [this]
      rw [List.getElem?_take_of_lt hik]
      exact hi

theorem takeWhile_stop (p : Char → Bool) :
    ∀ l : List Char, l[(l.takeWhile p).length]? = none ∨
      ∃ a, l[(l.takeWhile p).length]? = some a ∧ p a = false
  | [] => Or.inl rfl
  | x :: xs => by
      by_cases hx : p x
      · rw [List.takeWhile_cons_of_pos hx]
        simpa using takeWhile_stop p xs
      · rw [List.takeWhile_cons_of_neg hx]
        exact Or.inr ⟨x, by simp, by simpa using hx⟩

theorem head_dropWhile_false (p : Char → Bool) (l : List Char) {a : Char}
    (h : (l.dropWhile p).head? = some a) : p a = false := by
  have hm := List.head?_dropWhile_not p l
  rw [h] at hm
  exact hm

theorem removeTrailingSpaces_eq_take (l : List Char) :
    removeTrailingSpaces l =
      l.take (l.length - (l.reverse.takeWhile (fun ch => ch = ' ')).length) := by
  unfold removeTrailingSpaces
  have hsplit := List.takeWhile_append_dropWhile
    (p := fun ch => decide (ch = ' ')) (l := l.reverse)
  have hdrop : l.reverse.dropWhile (fun ch => decide (ch = ' ')) =
      l.reverse.drop ((l.reverse.takeWhile (fun ch => decide (ch = ' '))).length) := by
    conv_lhs => rw [← List.drop_left (l.reverse.takeWhile (fun ch => decide (ch = ' ')))
      (l.reverse.dropWhile (fun ch => decide (ch = ' ')))]
    rw [hsplit]
  rw [hdrop, List.drop_reverse, List.reverse_reverse]

theorem removeTrailingSpaces_getLast_ne (l : List Char) :
    (removeTrailingSpaces l).getLast? ≠ some ' ' := by
  unfold removeTrailingSpaces
  rw [List.getLast?_reverse]
  intro h
  have := head_dropWhile_false (fun ch => decide (ch = ' ')) l.reverse h
  simp at this

theorem spacesOk_removeTrailingSpaces {text l : List Char} (h : SpacesOk text l) :
    SpacesOk text (removeTrailingSpaces l) := by
  rw [removeTrailingSpaces_eq_take]
  refine spacesOk_take_of_getLast h ?_
  rw [← removeTrailingSpaces_eq_take]
  exact removeTrailingSpaces_getLast_ne l

theorem spacesOk_dropLast {text l : List Char} (h : SpacesOk text l)
    (hlast : l.getLast? ≠ some ' ') : SpacesOk text l.dropLast := by
  rw [List.dropLast_eq_take]
  refine spacesOk_take h ?_
  rwa [← List.getLast?_eq_getElem?]

theorem spacesOk_pop {g : Game} (h : SpacesOk g.text g.input) :
    SpacesOk g.text (Game.pop g).input := by
  unfold Game.pop
  split
  · next c hc =>
      split
      · next hceq => exact spacesOk_removeTrailingSpaces h
      · next hcne =>
          refine spacesOk_dropLast h ?_
          rw [hc]
          intro hcontra
          exact hcne (by injection hcontra)
  · next hnone =>
      refine spacesOk_dropLast h ?_
      rw [hnone]
      intro hcontra
      exact Option.noConfusion hcontra

theorem spacesOk_pop_word {g : Game} (h : SpacesOk g.text g.input) :
    SpacesOk g.text (Game.pop_word g).input := by
  unfold Game.pop_word
  dsimp only
  by_cases hr2 : ((g.input.reverse.dropWhile (fun ch => decide (ch = ' '))).dropWhile
      (fun ch => decide (ch ≠ ' '))) = []
  · rw [hr2]
    simpa using spacesOk_nil g.text
  · set rev := g.input.reverse with hrev
    set A := rev.takeWhile (fun ch => decide (ch = ' ')) with hA
    set r1 := rev.dropWhile (fun ch => decide (ch = ' ')) with hr1
    set B := r1.takeWhile (fun ch => decide (ch ≠ ' ')) with hB
    set r2 := r1.dropWhile (fun ch => decide (ch ≠ ' ')) with hr2def
    have hr1ne : r1 ≠ [] := by
      intro hcon
      apply hr2
      rw [hr2def, hcon]
      rfl
    have hh1 : ∃ h1, r1.head? = some h1 := by
      cases hr1c : r1 with
      | nil => exact absurd hr1c hr1ne
      | cons x xs => exact ⟨x, rfl⟩
    obtain ⟨h1, hh1⟩ := hh1
    have hph1 : ¬ h1 = ' ' := by
      have := head_dropWhile_false (fun ch => decide (ch = ' ')) rev hh1
      simpa using this
    have hBne : B ≠ [] := by
      cases hr1c : r1 with
      | nil => exact absurd hr1c hr1ne
      | cons x xs =>
          rw [hr1c] at hh1
          have hx : x = h1 := by injection hh1
          rw [hB, hr1c, List.takeWhile_cons_of_pos (by simp [hx, hph1])]
          simp
    have hdecomp : g.input = r2.reverse ++ (B.reverse ++ A.reverse) := by
      have h1s : rev = A ++ r1 := (List.takeWhile_append_dropWhile _ _).symm
      have h2s : r1 = B ++ r2 := (List.takeWhile_append_dropWhile _ _).symm
      calc g.input = rev.reverse := (List.reverse_reverse g.input).symm
        _ = (A ++ (B ++ r2)).reverse := by rw [← h2s, ← h1s]
        _ = r2.reverse ++ (B.reverse ++ A.reverse) := by
            simp [List.reverse_append]
    have hb : B.getLast? = some (B.getLast hBne) := List.getLast?_eq_getLast B hBne
    have hbB : B.getLast hBne ∈ B := List.getLast_mem hBne
    have hbne : ¬ B.getLast hBne = ' ' := by
      have := List.mem_takeWhile_imp hbB
      simpa using this
    have hkey : g.input[r2.length]? = some (B.getLast hBne) := by
      rw [hdecomp]
      rw [List.getElem?_append_right (by simp)]
      rw [List.length_reverse]
      rw [Nat.sub_self]
      rw [← List.head?_eq_getElem?]
      rw [List.head?_append]
      rw [List.head?_reverse]
      rw [hb]
      rfl
    refine spacesOk_take h ?_
    rw [hkey]
    intro hcontra
    exact hbne (by injection hcontra)

theorem spacesOk_pushNormal {g : Game} (t : ℚ) (c : Char) (h : SpacesOk g.text g.input)
    (hc : c = ' ' → (g.text[g.input.length]? = some ' ' ∨ g.text.length ≤ g.input.length)) :
    SpacesOk g.text (Game.pushNormal t c g).input := by
  rw [pushNormal_input]
  split
  · exact h
  · exact spacesOk_append_single h hc

theorem spacesOk_pushCore {g : Game} (t : ℚ) (c : Char)
    (hsk : g.skip_word_on_space = true) (h : SpacesOk g.text g.input) :
    SpacesOk g.text (Game.pushCore t c g).input := by
  unfold Game.pushCore
  dsimp only
  split
  · next hcs =>
      have hcsp : c = ' ' := hcs.2
      split
      · next cur hcur =>
          split
          · next hcond =>
              split
              · exact h
              · next p hp =>
                  split
                  · exact h
                  · -- the word-skip fill
                    set tw := ((g.text.drop g.input.length).takeWhile
                      (fun ch => decide (ch ≠ ' '))).length with htw
                    have hstop := takeWhile_stop (fun ch => decide (ch ≠ ' '))
                      (g.text.drop g.input.length)
                    rw [List.getElem?_drop] at hstop
                    have hend : g.text[g.input.length + (tw + 1) - 1]? = some ' ' ∨
                        g.text.length ≤ g.input.length + (tw + 1) - 1 := by
                      have harith : g.input.length + (tw + 1) - 1 = g.input.length + tw := by
                        omega
                      rw [harith]
                      rcases hstop with hnone | ⟨a, ha, hpa⟩
                      · right
                        rw [← htw] at hnone
                        exact List.getElem?_eq_none_iff.mp hnone
                      · left
                        rw [← htw] at ha
                        have : a = ' ' := by simpa using hpa
                        rwa [this] at ha
                    have hres := spacesOk_append_replicate h (Nat.succ_pos tw) hend
                    split
                    · simpa [finish_input] using hres
                    · simpa using hres
          · split
            · exact h
            · next hcur2 =>
                refine spacesOk_pushNormal t c h (fun _ => Or.inl ?_)
                have hcsp2 : cur = ' ' := not_not.mp (by simpa using hcur2)
                rw [hcur, hcsp2]
      · next hnone =>
          exact spacesOk_pushNormal t c h (fun _ => Or.inr (List.getElem?_eq_none_iff.mp hnone))
  · next hcs =>
      exact spacesOk_pushNormal t c h (fun hc' => absurd ⟨hsk, hc'⟩ hcs)

theorem spacesOk_reachable {g : Game} (hr : Reachable g) :
    g.skip_word_on_space = true → SpacesOk g.text g.input := by
  induction hr with
  | new ws strict skip t => exact fun _ => spacesOk_nil _
  | push t c hr ih =>
      intro hsk
      rw [push_skip] at hsk
      have h0 := ih hsk
      rw [push_text]
      unfold Game.push
      split
      · exact spacesOk_pushCore t c hsk h0
      · exact spacesOk_pushCore t c hsk h0
  | pop hr ih =>
      intro hsk
      rw [pop_skip] at hsk
      rw [pop_text]
      exact spacesOk_pop (ih hsk)
  | pop_word hr ih =>
      intro hsk
      rw [pop_word_skip] at hsk
      rw [pop_word_text]
      exact spacesOk_pop_word (ih hsk)
  | start t hr ih =>
      intro hsk
      rw [start_skip] at hsk
      rw [start_text, start_input]
      exact ih hsk
  | finish t hr ih =>
      intro hsk
      rw [finish_skip] at hsk
      rw [finish_text, finish_input]
      exact ih hsk

theorem getLast?_append_replicate_space (l : List Char) (k : ℕ) (hk : 0 < k) :
    (l ++ List.replicate k ' ').getLast? = some ' ' := by
  rw [List.getLast?_append]
  have hrep : (List.replicate k ' ').getLast? = some ' ' := by
    cases k with
    | zero => omega
    | succ n =>
        rw [List.getLast?_eq_getElem?]
        simp [List.getElem?_replicate]
  rw [hrep]
  rfl

theorem removeTrailingSpaces_append_replicate (l : List Char) (k : ℕ) {d : Char}
    (hd : l.getLast? = some d) (hd2 : d ≠ ' ') :
    removeTrailingSpaces (l ++ List.replicate k ' ') = l := by
  unfold removeTrailingSpaces
  rw [List.reverse_append, List.reverse_replicate]
  rw [List.dropWhile_append_of_pos (by
    intro a ha
    have := List.eq_of_mem_replicate ha
    simp [this])]
  have hrev : l.reverse.head? = some d := by rw [List.head?_reverse]; exact hd
  cases hrevc : l.reverse with
  | nil => rw [hrevc] at hrev; exact Option.noConfusion hrev
  | cons x xs =>
      rw [hrevc] at hrev
      have hx : x = d := by injection hrev
      rw [List.dropWhile_cons_of_neg (by simp [hx, hd2])]
      rw [← hrevc, List.reverse_reverse]

theorem pop_input (g : Game) : (Game.pop g).input =
    if g.input.getLast? = some ' ' then removeTrailingSpaces g.input else g.input.dropLast := by
  unfold Game.pop
  split
  · next c hc =>
      split
      · next hceq => rw [if_pos (by rw [hc, hceq])]
      · next hcne =>
          rw [if_neg (by rw [hc]; intro hcon; exact hcne (by injection hcon))]
  · next hnone =>
      rw [if_neg (by rw [hnone]; exact fun hcon => Option.noConfusion hcon)]

/-- C5: in every reachable skip-enabled session where `push ' '` triggers
the word-skip fill (buffer non-empty, target character at the cursor not a
space, previous target character not a space), one immediately following
`pop` removes exactly the run of spaces the fill appended, restoring the
whole input buffer — in particular its length — to the pre-skip value. -/
theorem skip_fill_pop_roundtrip (g : Game) (t : ℚ) (cur prev : Char)
    (hr : Reachable g) (hskip : g.skip_word_on_space = true)
    (hi : 0 < g.input.length)
    (hcur : g.text[g.input.length]? = some cur) (hcur2 : cur ≠ ' ')
    (hprev : g.text[g.input.length - 1]? = some prev) (hprev2 : prev ≠ ' ') :
    (Game.pop (Game.push t ' ' g)).input = g.input := by
  have hso := spacesOk_reachable hr hskip
  have hne : g.input ≠ [] := List.length_pos.mp hi
  obtain ⟨d, hd⟩ : ∃ d, g.input.getLast? = some d :=
    ⟨g.input.getLast hne, List.getLast?_eq_getLast _ hne⟩
  have hd' : g.input[g.input.length - 1]? = some d := by
    rw [← List.getLast?_eq_getElem?]; exact hd
  have hd2 : d ≠ ' ' := by
    intro hdsp
    have hrunfinal := hso (g.input.length - 1) (by rw [hd', hdsp]) (by
      rw [show g.input.length - 1 + 1 = g.input.length by omega]
      rw [List.getElem?_eq_none (by omega)]
      exact fun hcon => Option.noConfusion hcon)
    rcases hrunfinal with hsp | hlen
    · rw [hprev] at hsp
      exact hprev2 (by injection hsp)
    · have : g.input.length - 1 < g.text.length := (List.getElem?_eq_some_iff.mp hprev).1
      omega
  have hpush : (Game.push t ' ' g).input =
      g.input ++ List.replicate (((g.text.drop g.input.length).takeWhile
        (fun ch => ch ≠ ' ')).length + 1) ' ' := by
    unfold Game.push
    rw [if_neg (by omega)]
    unfold Game.pushCore
    dsimp only
    rw [if_pos ⟨hskip, rfl⟩]
    rw [hcur]
    dsimp only
    rw [if_pos ⟨hcur2, hi⟩]
    rw [hprev]
    dsimp only
    rw [if_neg hprev2]
    split
    · rw [finish_input]
    · rfl
  rw [pop_input, hpush]
  rw [if_pos (getLast?_append_replicate_space _ _ (Nat.succ_pos _))]
  exact removeTrailingSpaces_append_replicate _ _ hd hd2

/-- Witness for C5 at the concrete session: a space triggers the fill and
one `pop` restores the buffer. -/
theorem skip_fill_pop_roundtrip_witness :
    (Game.pop (Game.push 0 ' ' gSkipStart)).input = gSkipStart.input :=
  skip_fill_pop_roundtrip gSkipStart 0 'b' 'a'
    (Reachable.push 0 'a' (Reachable.new [['a','b'],['c','d']] false true 0))
    (by decide) (by decide) (by decide) (by decide) (by decide) (by decide)

/-! Section: Claim C10 -/

/-- C10: when the sampler's guard holds (`word_count ≤` token count) and the
drawn offset is in the range `0..=len - word_count` that `gen_range`
produces, `choose_words` stays in bounds: the window start `r` satisfies
`r + word_count ≤ len`, the window has exactly `word_count` tokens, its
`i`-th token is token `r + i` of the input, and a corpus of exactly
`word_count` tokens is returned unchanged. -/
theorem choose_words_in_range (ws : List (List Char)) (wc : ℕ) (rng : ℕ → ℕ)
    (hwc : wc ≤ ws.length) (hrng : rng (ws.length - wc) ≤ ws.length - wc) :
    rng (ws.length - wc) + wc ≤ ws.length ∧
    (choose_words ws wc rng).length = wc ∧
    (∀ i, i < wc → (choose_words ws wc rng)[i]? = ws[rng (ws.length - wc) + i]?) ∧
    (ws.length = wc → choose_words ws wc rng = ws) := by
  have hle : rng (ws.length - wc) + wc ≤ ws.length := by omega
  refine ⟨hle, ?_, ?_, ?_⟩
  · unfold choose_words
    dsimp only
    simp only [List.length_take, List.length_drop]
    omega
  · intro i hi
    unfold choose_words
    dsimp only
    rw [List.getElem?_take_of_lt hi, List.getElem?_drop]
  · intro heq
    unfold choose_words
    dsimp only
    have h0 : rng (ws.length - wc) = 0 := by omega
    rw [h0]
    simp [heq]

/-- Witness for C10: a three-token corpus with `word_count = 3` (the only
valid window start is `0`) is returned whole. -/
theorem choose_words_in_range_witness :
    (fun r => r) ([['a'],['b'],['c']].length - 3) + 3 ≤ [['a'],['b'],['c']].length ∧
    (choose_words [['a'],['b'],['c']] 3 (fun r => r)).length = 3 ∧
    (∀ i, i < 3 → (choose_words [['a'],['b'],['c']] 3 (fun r => r))[i]? =
      [['a'],['b'],['c']][(fun r => r) ([['a'],['b'],['c']].length - 3) + i]?) ∧
    ([['a'],['b'],['c']].length = 3 → choose_words [['a'],['b'],['c']] 3 (fun r => r) =
      [['a'],['b'],['c']]) :=
  choose_words_in_range [['a'],['b'],['c']] 3 (fun r => r) (by decide) (by decide)

/-! Section: Claim C6 -/

/-- C6 counterexample: on the single candidate file `éx` with a character
budget of `1`, the truncation guard fires (2 characters > 1) and the byte
slice `code[..1]` splits the two-byte `é`, so the program panics
(modelled as `none`): the run is neither of the two error variants nor a
success — a fourth outcome the claim's disjunction does not allow. -/
theorem words_panics_on_multibyte :
    words 1 1 (fun _ => 0) [['é','x']] = none ∧
    (∀ r : Except Error (List (List Char)), words 1 1 (fun _ => 0) [['é','x']] ≠ some r) := by
  refine ⟨rfl, fun r h => ?_⟩
  rw [(rfl : words 1 1 (fun _ => 0) [['é','x']] = none)] at h
  exact Option.noConfusion h

theorem wordsLoop_shape (wc maxLen : ℕ) (rng : ℕ → ℕ) (hrng : ∀ m, rng m ≤ m) :
    ∀ fs : List (List Char),
      wordsLoop wc maxLen rng fs = none ∨
      wordsLoop wc maxLen rng fs = some (Except.error Error.InsufficientWords) ∨
      ∃ ws, wordsLoop wc maxLen rng fs = some (Except.ok ws) ∧ ws.length = wc ∧
        ∃ code ∈ fs, ∃ toks, tokensOf? maxLen code = some toks ∧
          ∃ r, ws = (toks.drop r).take wc
  | [] => Or.inr (Or.inl rfl)
  | code :: rest => by
      rw [wordsLoop]
      split
      · exact Or.inl rfl
      · next ws hws =>
          split
          · next hlt =>
              rcases wordsLoop_shape wc maxLen rng hrng rest with
                h | h | ⟨ws2, hok, hlen, c0, hc0, toks, htoks, r, hr⟩
              · exact Or.inl h
              · exact Or.inr (Or.inl h)
              · exact Or.inr (Or.inr ⟨ws2, hok, hlen, c0, List.mem_cons_of_mem _ hc0,
                  toks, htoks, r, hr⟩)
          · next hge =>
              refine Or.inr (Or.inr ⟨choose_words ws wc rng, rfl, ?_, code,
                List.mem_cons_self _ _, ws, hws, rng (ws.length - wc), rfl⟩)
              have hb := hrng (ws.length - wc)
              unfold choose_words
              dsimp only
              simp only [List.length_take, List.length_drop]
              omega

/-- C6 (amended): for every configuration, character budget, candidate
order and in-range window randomness, `words` either panics (`none`: the
byte-slice truncation of multi-byte content lands inside a character, the
defect recorded under C7), or fails with `NoFiles` (no matching file) or
`InsufficientWords` (every candidate tried and too short), or succeeds
with exactly `word_count` tokens that form a contiguous window of the
token sequence of a single candidate file's trimmed, truncated content. -/
theorem words_shape (wc maxLen : ℕ) (rng : ℕ → ℕ) (files : List (List Char))
    (hrng : ∀ m, rng m ≤ m) :
    words wc maxLen rng files = none ∨
    words wc maxLen rng files = some (Except.error Error.NoFiles) ∨
    words wc maxLen rng files = some (Except.error Error.InsufficientWords) ∨
    ∃ ws, words wc maxLen rng files = some (Except.ok ws) ∧ ws.length = wc ∧
      ∃ code ∈ files, ∃ toks, tokensOf? maxLen code = some toks ∧
        ∃ r, ws = (toks.drop r).take wc := by
  unfold words
  split
  · exact Or.inr (Or.inl rfl)
  · rcases wordsLoop_shape wc maxLen rng hrng files with h | h | h
    · exact Or.inl h
    · exact Or.inr (Or.inr (Or.inl h))
    · exact Or.inr (Or.inr (Or.inr h))

/-- Witness for the amended C6: the single file `a b` sampled for one
word (a run that neither panics nor errors). -/
theorem words_shape_witness :
    words 1 10 (fun _ => 0) [['a',' ','b']] = none ∨
    words 1 10 (fun _ => 0) [['a',' ','b']] = some (Except.error Error.NoFiles) ∨
    words 1 10 (fun _ => 0) [['a',' ','b']] = some (Except.error Error.InsufficientWords) ∨
    ∃ ws, words 1 10 (fun _ => 0) [['a',' ','b']] = some (Except.ok ws) ∧ ws.length = 1 ∧
      ∃ code ∈ [['a',' ','b']], ∃ toks, tokensOf? 10 code = some toks ∧
        ∃ r, ws = (toks.drop r).take 1 :=
  words_shape 1 10 (fun _ => 0) [['a',' ','b']] (fun m => Nat.zero_le m)

/-! Section: Claim C7 -/

/-- C7 (code bug): the truncation step guards on the *character* count but
slices the first `max_chars` *bytes*.  On the three-character content
`ééx` with `max_chars = 2` the slice keeps one character, not the first
two; on `éx` with `max_chars = 1` byte 1 splits the first character and
the Rust program panics (modelled as `none`). -/
theorem truncate_chars_vs_bytes :
    truncateBytes 2 ['é','é','x'] = some ['é'] ∧
    ['é','é','x'].take 2 = ['é','é'] ∧
    truncateBytes 2 ['é','é','x'] ≠ some (['é','é','x'].take 2) ∧
    truncateBytes 1 ['é','x'] = none := by decide

end Tccst
